import Mathlib

/-!
# Verification of EntropyVisualizer.py

A shallow embedding of the core of `src/EntropyVisualizer.py`:

* `compute_entropy` — Shannon entropy of a block of bytes (lines 28–44);
* `max_entropy` — maximum achievable entropy for a block length (lines 47–55);
* `entropy_to_color` — the 5-anchor gradient mapper (lines 58–86);
* the grid-layout search and `create_image` (lines 89–152);
* `block_norm` / `block_color` — the per-block pipeline of `main` (lines 190–194).

Python `float` arithmetic is modelled over the real numbers `ℝ`; Python's
`int(...)` truncation of the nonnegative quantities appearing here is the
floor, and the integer/float divisions in the layout code are modelled by
natural-number floor division (exact for the magnitudes the program reaches).
Python exceptions are modelled with `Except`: the only uncaught exception the
embedded code can raise is the `ZeroDivisionError` of `canvas_height / n`
at `n = 0` in `create_image`.
-/

abbrev Byte := Fin 256

abbrev Color := ℤ × ℤ × ℤ

/-- Lines 28–44: frequency map over the distinct bytes of the block, then
`ent -= p * log2(p)` for each count; `0.0` for an empty block. -/
noncomputable def compute_entropy (block : List Byte) : ℝ :=
  if block = [] then 0
  else ∑ b ∈ block.toFinset,
    -(((block.count b : ℝ) / block.length) * Real.logb 2 ((block.count b : ℝ) / block.length))

/-- Lines 47–55: `0.0` for `n == 0`, else `log2(n)` if `n < 256` else `8.0`. -/
noncomputable def max_entropy (n : ℕ) : ℝ :=
  if n = 0 then 0
  else if n < 256 then Real.logb 2 n else 8

/-- Lines 68–74: the fixed anchor table of the gradient. -/
noncomputable def anchors : List (ℝ × Color) :=
  [(0, (0, 0, 255)), (0.25, (0, 255, 255)), (0.5, (0, 255, 0)),
   (0.75, (255, 255, 0)), (1, (255, 0, 0))]

/-- Lines 82–84: one channel of the linear interpolation,
`int(col0 + t * (col1 - col0))`; the value is nonnegative here, so Python's
truncation toward zero is the floor. -/
noncomputable def interp_channel (c0 c1 : ℤ) (t : ℝ) : ℤ :=
  ⌊(c0 : ℝ) + t * ((c1 : ℝ) - (c0 : ℝ))⌋

/-- Lines 78–85: scan adjacent anchor pairs; on the first pair with
`x0 <= norm <= x1` return the interpolated color; `none` when the loop
falls through. -/
noncomputable def find_bracket : List (ℝ × Color) → ℝ → Option Color
  | (x0, c0) :: (x1, c1) :: rest, norm =>
    if x0 ≤ norm ∧ norm ≤ x1 then
      some (interp_channel c0.1 c1.1 ((norm - x0) / (x1 - x0)),
            interp_channel c0.2.1 c1.2.1 ((norm - x0) / (x1 - x0)),
            interp_channel c0.2.2 c1.2.2 ((norm - x0) / (x1 - x0)))
    else find_bracket ((x1, c1) :: rest) norm
  | _, _ => none

/-- Lines 58–86: clamp to `[0,1]`, interpolate along the anchors; line 86's
fallback `anchors[-1][1]` is the last anchor's color, red `(255,0,0)`. -/
noncomputable def entropy_to_color (norm : ℝ) : Color :=
  (find_bracket anchors (max 0 (min 1 norm))).getD (255, 0, 0)

/-- Line 108: fixed canvas width. -/
def canvas_width : ℕ := 400

/-- Line 108: fixed canvas height. -/
def canvas_height : ℕ := 800

/-- Lines 124–129: one iteration of the grid search. State is
`(max_square_size, best_cols, best_rows)`; `rows = ceil(n / cols)` and the
candidate size is `int(min(canvas_width / cols, canvas_height / rows))`;
only a strictly larger size replaces the current best. -/
def grid_step (n : ℕ) (st : ℕ × ℕ × ℕ) (cols : ℕ) : ℕ × ℕ × ℕ :=
  if st.1 < min (canvas_width / cols) (canvas_height / ((n + cols - 1) / cols)) then
    (min (canvas_width / cols) (canvas_height / ((n + cols - 1) / cols)), cols, (n + cols - 1) / cols)
  else st

/-- Lines 120–129: the general-case search over `cols = 1 .. n`, starting
from `max_square_size = 0`, `best_cols = 1`, `best_rows = 1`. -/
def grid_search (n : ℕ) : ℕ × ℕ × ℕ :=
  (List.range' 1 n).foldl (grid_step n) (0, 1, 1)

/-- Lines 111–129 for `n > 0`: the vertical single-column layout when its
square size `int(min(canvas_width, canvas_height / n))` reaches
`pixel_size`, otherwise the grid search. Result is
`(max_square_size, best_cols, best_rows)`. -/
def image_layout (n pixel_size : ℕ) : ℕ × ℕ × ℕ :=
  let vertical_square_size := min canvas_width (canvas_height / n)
  if pixel_size ≤ vertical_square_size then (vertical_square_size, 1, n)
  else grid_search n

/-- The one uncaught exception the embedded `create_image` can raise. -/
inductive PyError
  | zeroDivisionError
deriving Repr, DecidableEq

/-- Observable outcome of a `create_image` call that returned normally:
the messages it printed, the rectangles it drew, and the path it saved to
(`none` when nothing was persisted). -/
structure ImageResult where
  messages : List String
  rects : List (ℤ × ℤ × ℤ × ℤ × Color)
  saved : Option String
deriving Repr

/-- Lines 141–146: for block index `i`, `row = i // best_cols`,
`col_index = i % best_cols`, and a filled rectangle from
`(x, y)` to `(x + size - 1, y + size - 1)`. -/
def draw_rects (colors : List Color) (cols size left top : ℕ) :
    List (ℤ × ℤ × ℤ × ℤ × Color) :=
  ((List.range colors.length).zip colors).map (fun p =>
    ((left + (p.1 % cols) * size : ℤ), (top + (p.1 / cols) * size : ℤ),
     (left + (p.1 % cols) * size + size - 1 : ℤ),
     (top + (p.1 / cols) * size + size - 1 : ℤ), p.2))

/-- Lines 89–152: `create_image`. `pillow_available` models whether the
`PIL` import succeeded (lines 22–25, checked at lines 103–105);
`save_succeeds` models whether `img.save` raises (lines 148–152, where any
exception is caught and reported). With an empty color list the expression
`canvas_height / n` at line 112 raises an uncaught `ZeroDivisionError`. -/
def create_image (pillow_available : Bool) (colors : List Color)
    (pixel_size : ℕ) (save_succeeds : Bool) (output_file : String) :
    Except PyError ImageResult :=
  if pillow_available = false then
    .ok ⟨["Pillow is not installed. Please install it (pip install Pillow) to create images."],
         [], none⟩
  else if colors.length = 0 then
    .error .zeroDivisionError
  else
    let g := image_layout colors.length pixel_size
    let left_margin := (canvas_width - g.2.1 * g.1) / 2
    let top_margin := (canvas_height - g.2.2 * g.1) / 2
    let rects := draw_rects colors g.2.1 g.1 left_margin top_margin
    if save_succeeds then
      .ok ⟨["Image saved to " ++ output_file], rects, some output_file⟩
    else
      .ok ⟨["Error saving image:"], rects, none⟩

/-- Lines 191–193 of `main`: the normalized entropy of one block,
`ent / max_ent if max_ent > 0 else 0.0`. -/
noncomputable def block_norm (block : List Byte) : ℝ :=
  if max_entropy block.length > 0 then
    compute_entropy block / max_entropy block.length
  else 0

/-- Line 194 of `main`: the color assigned to one block. -/
noncomputable def block_color (block : List Byte) : Color :=
  entropy_to_color (block_norm block)

/-! ## Theorems -/

/-- C4: `max_entropy` returns exactly `0.0` when `n = 0`, `log2 n` when
`0 < n < 256`, and `8.0` when `n ≥ 256`; in particular
`max_entropy 255 = log2 255`, `max_entropy 256 = 8.0`, and
`max_entropy 1000 = 8.0`. -/
theorem max_entropy_cases :
    max_entropy 0 = 0 ∧
    (∀ n : ℕ, 0 < n → n < 256 → max_entropy n = Real.logb 2 (n : ℝ)) ∧
    (∀ n : ℕ, 256 ≤ n → max_entropy n = 8) ∧
    max_entropy 255 = Real.logb 2 255 ∧
    max_entropy 256 = 8 ∧
    max_entropy 1000 = 8 := by
  refine ⟨by simp [max_entropy], ?_, ?_, ?_, ?_, ?_⟩
  · intro n hn hn'
    simp [max_entropy, Nat.pos_iff_ne_zero.mp hn, hn']
  · intro n hn
    have h0 : n ≠ 0 := by omega
    have h1 : ¬ n < 256 := by omega
    simp [max_entropy, h0, h1]
  · norm_num [max_entropy]
  · norm_num [max_entropy]
  · norm_num [max_entropy]

/-- Witness for C4 at a concrete length. -/
theorem max_entropy_cases_witness : max_entropy 3 = Real.logb 2 (3 : ℝ) :=
  max_entropy_cases.2.1 3 (by norm_num) (by norm_num)

/-- C1 (failing input): called with an empty `ColorSequence`, `create_image`
does not produce an empty canvas — the vertical-layout expression
`canvas_height / n` divides by zero and the call raises an uncaught
`ZeroDivisionError`. -/
theorem create_image_empty_raises :
    create_image true [] 1 true "entropy.png" =
      Except.error PyError.zeroDivisionError := rfl

/-- C7: a failure to persist the image never propagates out of
`create_image`: with Pillow absent it returns normally with a notice, and
with Pillow present on a nonempty color list a failing `img.save` is caught
and reported as a message while the call still returns normally. -/
theorem create_image_persist_failure_recoverable :
    ∀ (colors : List Color) (ps : ℕ) (f : String) (save_ok : Bool),
      create_image false colors ps save_ok f =
        Except.ok ⟨["Pillow is not installed. Please install it (pip install Pillow) to create images."],
                   [], none⟩ ∧
      (colors ≠ [] →
        ∃ r : ImageResult, create_image true colors ps false f = Except.ok r ∧
          r.saved = none ∧ r.messages = ["Error saving image:"]) := by
  intro colors ps f save_ok
  constructor
  · rfl
  · intro hne
    have hlen : ¬ colors.length = 0 := by simpa using hne
    have h : create_image true colors ps false f =
        Except.ok ⟨["Error saving image:"],
          draw_rects colors (image_layout colors.length ps).2.1
            (image_layout colors.length ps).1
            ((canvas_width - (image_layout colors.length ps).2.1 *
              (image_layout colors.length ps).1) / 2)
            ((canvas_height - (image_layout colors.length ps).2.2 *
              (image_layout colors.length ps).1) / 2), none⟩ := by
      simp [create_image, hlen]
    exact ⟨_, h, rfl, rfl⟩

/-- Witness for C7 on a concrete one-block color list. -/
theorem create_image_persist_failure_recoverable_witness :
    ∃ r : ImageResult,
      create_image true [((0 : ℤ), (0 : ℤ), (255 : ℤ))] 1 false "entropy.png" = Except.ok r ∧
        r.saved = none ∧ r.messages = ["Error saving image:"] :=
  (create_image_persist_failure_recoverable [((0 : ℤ), (0 : ℤ), (255 : ℤ))] 1 "entropy.png" true).2
    (by simp)

/-- Unfolding equation for `find_bracket` on two or more anchors. -/
lemma find_bracket_cons (x0 x1 : ℝ) (c0 c1 : Color) (rest : List (ℝ × Color)) (norm : ℝ) :
    find_bracket ((x0, c0) :: (x1, c1) :: rest) norm =
      if x0 ≤ norm ∧ norm ≤ x1 then
        some (interp_channel c0.1 c1.1 ((norm - x0) / (x1 - x0)),
              interp_channel c0.2.1 c1.2.1 ((norm - x0) / (x1 - x0)),
              interp_channel c0.2.2 c1.2.2 ((norm - x0) / (x1 - x0)))
      else find_bracket ((x1, c1) :: rest) norm := rfl

/-- An interpolated channel between in-range endpoints stays in `[0, 255]`. -/
lemma interp_channel_mem {c0 c1 : ℤ} {t : ℝ} (hc0 : 0 ≤ c0) (hc0' : c0 ≤ 255)
    (hc1 : 0 ≤ c1) (hc1' : c1 ≤ 255) (ht : 0 ≤ t) (ht' : t ≤ 1) :
    0 ≤ interp_channel c0 c1 t ∧ interp_channel c0 c1 t ≤ 255 := by
  have hc0R : (0 : ℝ) ≤ (c0 : ℝ) := by exact_mod_cast hc0
  have hc0R' : (c0 : ℝ) ≤ 255 := by exact_mod_cast hc0'
  have hc1R : (0 : ℝ) ≤ (c1 : ℝ) := by exact_mod_cast hc1
  have hc1R' : (c1 : ℝ) ≤ 255 := by exact_mod_cast hc1'
  unfold interp_channel
  constructor
  · apply Int.le_floor.mpr
    push_cast
    nlinarith
  · have hle : (c0 : ℝ) + t * ((c1 : ℝ) - (c0 : ℝ)) ≤ ((255 : ℤ) : ℝ) := by
      push_cast
      nlinarith
    have h := Int.floor_le_floor hle
    rwa [Int.floor_intCast] at h

/-- The interpolation parameter of a bracketing pair lies in `[0, 1]`. -/
lemma bracket_t_mem {x0 x1 c : ℝ} (h : x0 ≤ c) (h' : c ≤ x1) (hlt : x0 < x1) :
    0 ≤ (c - x0) / (x1 - x0) ∧ (c - x0) / (x1 - x0) ≤ 1 :=
  ⟨div_nonneg (by linarith) (by linarith), (div_le_one (by linarith)).mpr (by linarith)⟩

/-- On a clamped input the anchor scan succeeds and yields in-range channels. -/
lemma find_bracket_anchors_mem (c : ℝ) (h0 : 0 ≤ c) (h1 : c ≤ 1) :
    ∃ col : Color, find_bracket anchors c = some col ∧
      0 ≤ col.1 ∧ col.1 ≤ 255 ∧ 0 ≤ col.2.1 ∧ col.2.1 ≤ 255 ∧
      0 ≤ col.2.2 ∧ col.2.2 ≤ 255 := by
  rw [anchors]
  by_cases hA : c ≤ 0.25
  · rw [find_bracket_cons, if_pos ⟨h0, hA⟩]
    obtain ⟨ht0, ht1⟩ := bracket_t_mem h0 hA (by norm_num)
    have m1 := @interp_channel_mem 0 0 _ (by norm_num) (by norm_num) (by norm_num) (by norm_num) ht0 ht1
    have m2 := @interp_channel_mem 0 255 _ (by norm_num) (by norm_num) (by norm_num) (by norm_num) ht0 ht1
    have m3 := @interp_channel_mem 255 255 _ (by norm_num) (by norm_num) (by norm_num) (by norm_num) ht0 ht1
    exact ⟨_, rfl, m1.1, m1.2, m2.1, m2.2, m3.1, m3.2⟩
  · have hA' : (0.25 : ℝ) ≤ c := le_of_lt (not_le.mp hA)
    rw [find_bracket_cons, if_neg (fun h => hA h.2)]
    by_cases hB : c ≤ 0.5
    · rw [find_bracket_cons, if_pos ⟨hA', hB⟩]
      obtain ⟨ht0, ht1⟩ := bracket_t_mem hA' hB (by norm_num)
      have m1 := @interp_channel_mem 0 0 _ (by norm_num) (by norm_num) (by norm_num) (by norm_num) ht0 ht1
      have m2 := @interp_channel_mem 255 255 _ (by norm_num) (by norm_num) (by norm_num) (by norm_num) ht0 ht1
      have m3 := @interp_channel_mem 255 0 _ (by norm_num) (by norm_num) (by norm_num) (by norm_num) ht0 ht1
      exact ⟨_, rfl, m1.1, m1.2, m2.1, m2.2, m3.1, m3.2⟩
    · have hB' : (0.5 : ℝ) ≤ c := le_of_lt (not_le.mp hB)
      rw [find_bracket_cons, if_neg (fun h => hB h.2)]
      by_cases hC : c ≤ 0.75
      · rw [find_bracket_cons, if_pos ⟨hB', hC⟩]
        obtain ⟨ht0, ht1⟩ := bracket_t_mem hB' hC (by norm_num)
        have m1 := @interp_channel_mem 0 255 _ (by norm_num) (by norm_num) (by norm_num) (by norm_num) ht0 ht1
        have m2 := @interp_channel_mem 255 255 _ (by norm_num) (by norm_num) (by norm_num) (by norm_num) ht0 ht1
        have m3 := @interp_channel_mem 0 0 _ (by norm_num) (by norm_num) (by norm_num) (by norm_num) ht0 ht1
        exact ⟨_, rfl, m1.1, m1.2, m2.1, m2.2, m3.1, m3.2⟩
      · have hC' : (0.75 : ℝ) ≤ c := le_of_lt (not_le.mp hC)
        rw [find_bracket_cons, if_neg (fun h => hC h.2), find_bracket_cons, if_pos ⟨hC', h1⟩]
        obtain ⟨ht0, ht1⟩ := bracket_t_mem hC' h1 (by norm_num)
        have m1 := @interp_channel_mem 255 255 _ (by norm_num) (by norm_num) (by norm_num) (by norm_num) ht0 ht1
        have m2 := @interp_channel_mem 255 0 _ (by norm_num) (by norm_num) (by norm_num) (by norm_num) ht0 ht1
        have m3 := @interp_channel_mem 0 0 _ (by norm_num) (by norm_num) (by norm_num) (by norm_num) ht0 ht1
        exact ⟨_, rfl, m1.1, m1.2, m2.1, m2.2, m3.1, m3.2⟩

/-- The clamp fixes any value already in `[0, 1]`. -/
lemma clamp_of_mem {y : ℝ} (h0 : 0 ≤ y) (h1 : y ≤ 1) : max 0 (min 1 y) = y := by
  rw [min_eq_right h1, max_eq_right h0]

/-- The clamped value lies in `[0, 1]`. -/
lemma clamp_mem (x : ℝ) : 0 ≤ max 0 (min 1 x) ∧ max 0 (min 1 x) ≤ 1 :=
  ⟨le_max_left _ _, max_le (by norm_num) (min_le_left _ _)⟩

/-- C5: the color mapper returns exactly the anchor colors at the five
anchor positions, and out-of-range inputs give the color of the input
clamped to the nearest bound. -/
theorem entropy_to_color_anchors_and_clamp :
    entropy_to_color 0 = (0, 0, 255) ∧
    entropy_to_color 0.25 = (0, 255, 255) ∧
    entropy_to_color 0.5 = (0, 255, 0) ∧
    entropy_to_color 0.75 = (255, 255, 0) ∧
    entropy_to_color 1 = (255, 0, 0) ∧
    ∀ x : ℝ, entropy_to_color x = entropy_to_color (max 0 (min 1 x)) := by
  refine ⟨?_, ?_, ?_, ?_, ?_, ?_⟩
  · norm_num [entropy_to_color, anchors, find_bracket_cons, interp_channel]
  · norm_num [entropy_to_color, anchors, find_bracket_cons, interp_channel]
  · norm_num [entropy_to_color, anchors, find_bracket_cons, interp_channel]
  · norm_num [entropy_to_color, anchors, find_bracket_cons, interp_channel]
  · norm_num [entropy_to_color, anchors, find_bracket_cons, interp_channel]
  · intro x
    unfold entropy_to_color
    rw [clamp_of_mem (clamp_mem x).1 (clamp_mem x).2]

/-- C6: after the clamp, the interpolation loop always finds an adjacent
bracketing anchor pair: the scan returns `some`, every call of
`entropy_to_color` returns the loop's value, and the fallback return of
the last anchor's color is unreachable. -/
theorem find_bracket_never_falls_through :
    ∀ x : ℝ, ∃ col : Color,
      find_bracket anchors (max 0 (min 1 x)) = some col ∧
      entropy_to_color x = col := by
  intro x
  obtain ⟨col, hcol, -⟩ := find_bracket_anchors_mem _ (clamp_mem x).1 (clamp_mem x).2
  refine ⟨col, hcol, ?_⟩
  unfold entropy_to_color
  rw [hcol]
  rfl

/-- C10: for every real input, each channel produced by the color mapper
lies within `[0, 255]`: every produced `Color` is a valid 8-bit RGB triple. -/
theorem entropy_to_color_in_range :
    ∀ x : ℝ, 0 ≤ (entropy_to_color x).1 ∧ (entropy_to_color x).1 ≤ 255 ∧
      0 ≤ (entropy_to_color x).2.1 ∧ (entropy_to_color x).2.1 ≤ 255 ∧
      0 ≤ (entropy_to_color x).2.2 ∧ (entropy_to_color x).2.2 ≤ 255 := by
  intro x
  obtain ⟨col, hcol, h⟩ := find_bracket_anchors_mem _ (clamp_mem x).1 (clamp_mem x).2
  unfold entropy_to_color
  rw [hcol]
  exact h

/-- C8: for every single-byte block, `max_entropy 1 = log2 1 = 0`, so the
zero-maximum guard of `main` fires: the normalized entropy is `0.0` and the
assigned color is blue, regardless of the byte's value. -/
theorem single_byte_block_is_blue :
    ∀ b : Byte, max_entropy ([b] : List Byte).length = 0 ∧
      block_norm [b] = 0 ∧ block_color [b] = (0, 0, 255) := by
  intro b
  have hm : max_entropy ([b] : List Byte).length = 0 := by
    simp [max_entropy]
  have hn : block_norm [b] = 0 := by
    rw [block_norm, hm]
    simp
  refine ⟨hm, hn, ?_⟩
  rw [block_color, hn]
  norm_num [entropy_to_color, anchors, find_bracket_cons, interp_channel]

/-- C9: the entropy of a block depends only on its byte-frequency
distribution: any permutation of the block's bytes has the same entropy. -/
theorem compute_entropy_perm_invariant :
    ∀ b b' : List Byte, b.Perm b' → compute_entropy b = compute_entropy b' := by
  intro b b' h
  unfold compute_entropy
  by_cases hb : b = []
  · subst hb
    have : b' = [] := h.symm.eq_nil
    subst this
    rfl
  · have hb' : b' ≠ [] := fun e => hb (by subst e; exact h.eq_nil)
    rw [if_neg hb, if_neg hb', List.toFinset_eq_of_perm _ _ h, h.length_eq]
    apply Finset.sum_congr rfl
    intro x _
    rw [h.count_eq]

/-- Witness for C9 at a concrete transposition. -/
theorem compute_entropy_perm_invariant_witness :
    compute_entropy [(0 : Byte), 1] = compute_entropy [(1 : Byte), 0] :=
  compute_entropy_perm_invariant [(0 : Byte), 1] [(1 : Byte), 0] (by decide)

/-- The per-byte relative frequencies of a nonempty block sum to one. -/
lemma count_probs (b : List Byte) (hb : b ≠ []) :
    ∑ x ∈ b.toFinset, ((b.count x : ℝ) / (b.length : ℝ)) = 1 := by
  have hn : (0:ℝ) < (b.length : ℝ) := by
    exact_mod_cast List.length_pos.mpr hb
  have h' : ∑ x ∈ b.toFinset, b.count x = b.length := by
    simp
  have hcount : ∑ x ∈ b.toFinset, (b.count x : ℝ) = (b.length : ℝ) := by
    exact_mod_cast h'
  rw [← Finset.sum_div, hcount, div_self hn.ne']

/-- Gibbs bound via Jensen's inequality: the entropy of a nonempty block is
at most `log2` of its number of distinct byte values. -/
lemma compute_entropy_le_logb_card (b : List Byte) (hb : b ≠ []) :
    compute_entropy b ≤ Real.logb 2 (b.toFinset.card : ℝ) := by
  classical
  have hn : (0:ℝ) < (b.length : ℝ) := by
    exact_mod_cast List.length_pos.mpr hb
  set p : Byte → ℝ := fun x => (b.count x : ℝ) / (b.length : ℝ) with hp
  have hp_pos : ∀ x ∈ b.toFinset, 0 < p x := by
    intro x hx
    have hc : 0 < b.count x := List.count_pos_iff.mpr (List.mem_toFinset.mp hx)
    exact div_pos (by exact_mod_cast hc) hn
  have hp_nonneg : ∀ x ∈ b.toFinset, 0 ≤ p x := fun x hx => (hp_pos x hx).le
  have hsum : ∑ x ∈ b.toFinset, p x = 1 := count_probs b hb
  have hmem : ∀ x ∈ b.toFinset, (p x)⁻¹ ∈ Set.Ioi (0:ℝ) :=
    fun x hx => Set.mem_Ioi.mpr (inv_pos.mpr (hp_pos x hx))
  have jensen := (strictConcaveOn_log_Ioi.concaveOn).le_map_sum hp_nonneg hsum hmem
  have hinner : ∑ x ∈ b.toFinset, p x • (p x)⁻¹ = (b.toFinset.card : ℝ) := by
    have h1 : ∀ x ∈ b.toFinset, p x • (p x)⁻¹ = 1 := fun x hx => by
      rw [smul_eq_mul, mul_inv_cancel₀ (hp_pos x hx).ne']
    rw [Finset.sum_congr rfl h1, Finset.sum_const, nsmul_eq_mul, mul_one]
  have hlhs : ∑ x ∈ b.toFinset, p x • Real.log ((p x)⁻¹) =
      ∑ x ∈ b.toFinset, -(p x * Real.log (p x)) := by
    apply Finset.sum_congr rfl
    intro x _
    rw [smul_eq_mul, Real.log_inv]
    ring
  rw [hinner, hlhs] at jensen
  have hent : compute_entropy b = (∑ x ∈ b.toFinset, -(p x * Real.log (p x))) / Real.log 2 := by
    rw [compute_entropy, if_neg hb, Finset.sum_div]
    apply Finset.sum_congr rfl
    intro x _
    rw [Real.logb]
    ring
  rw [hent, ← Real.log_div_log]
  exact div_le_div_of_nonneg_right jensen (Real.log_pos (by norm_num)).le

/-- C2: for every block `b`, `0 ≤ entropy(b) ≤ max_entropy (len b)`, and the
Shannon entropy computed from the byte-frequency distribution never exceeds
`log2 (min 256 (len b))`. -/
theorem compute_entropy_bounds :
    ∀ b : List Byte, 0 ≤ compute_entropy b ∧
      compute_entropy b ≤ max_entropy b.length ∧
      compute_entropy b ≤ Real.logb 2 ((min 256 b.length : ℕ) : ℝ) := by
  intro b
  by_cases hb : b = []
  · subst hb
    norm_num [compute_entropy, max_entropy, Real.logb_zero]
  · have hn : (0:ℝ) < (b.length : ℝ) := by
      exact_mod_cast List.length_pos.mpr hb
    have hnonneg : 0 ≤ compute_entropy b := by
      rw [compute_entropy, if_neg hb]
      apply Finset.sum_nonneg
      intro x hx
      have hc : 0 < b.count x := List.count_pos_iff.mpr (List.mem_toFinset.mp hx)
      have hpp : 0 < (b.count x : ℝ) / (b.length : ℝ) := div_pos (by exact_mod_cast hc) hn
      have hp1 : (b.count x : ℝ) / (b.length : ℝ) ≤ 1 := by
        rw [div_le_one hn]
        exact_mod_cast List.count_le_length x b
      have hlog : Real.logb 2 ((b.count x : ℝ) / (b.length : ℝ)) ≤ 0 :=
        Real.logb_nonpos (by norm_num) hpp.le hp1
      nlinarith [mul_nonneg hpp.le (neg_nonneg.mpr hlog)]
    have hcard_pos : 0 < b.toFinset.card := by
      refine Finset.card_pos.mpr ?_
      cases b with
      | nil => exact absurd rfl hb
      | cons a l => exact ⟨a, by simp⟩
    have hcard_le : (b.toFinset.card : ℝ) ≤ ((min 256 b.length : ℕ) : ℝ) := by
      have h1 : b.toFinset.card ≤ b.length := List.toFinset_card_le b
      have h2 : b.toFinset.card ≤ 256 := by
        have h := Finset.card_le_univ b.toFinset
        rwa [Fintype.card_fin] at h
      exact_mod_cast le_min h2 h1
    have hmin : compute_entropy b ≤ Real.logb 2 ((min 256 b.length : ℕ) : ℝ) := by
      refine (compute_entropy_le_logb_card b hb).trans ?_
      exact Real.logb_le_logb_of_le (by norm_num) (by exact_mod_cast hcard_pos) hcard_le
    refine ⟨hnonneg, ?_, hmin⟩
    by_cases h256 : b.length < 256
    · have hminn : min 256 b.length = b.length := min_eq_right h256.le
      have hmax : max_entropy b.length = Real.logb 2 (b.length : ℝ) := by
        have h0 : b.length ≠ 0 := fun e => hb (List.length_eq_zero.mp e)
        simp [max_entropy, h0, h256]
      rw [hmax]
      rw [hminn] at hmin
      exact hmin
    · have hminn : min 256 b.length = 256 := min_eq_left (le_of_not_lt h256)
      have hmax : max_entropy b.length = 8 := by
        have h0 : b.length ≠ 0 := fun e => hb (List.length_eq_zero.mp e)
        simp [max_entropy, h0, h256]
      have h8 : Real.logb 2 ((256 : ℕ) : ℝ) = 8 := by
        rw [show ((256:ℕ):ℝ) = (2:ℝ)^(8:ℕ) by norm_num, Real.logb_pow,
          Real.logb_self_eq_one (by norm_num)]
        norm_num
      rw [hmax]
      rw [hminn, h8] at hmin
      exact hmin

lemma grid_step_fst_le (n : ℕ) (st : ℕ × ℕ × ℕ) (c : ℕ) : st.1 ≤ (grid_step n st c).1 := by
  unfold grid_step
  split
  · next h => exact le_of_lt h
  · exact le_refl _

lemma grid_foldl_fst_le (n : ℕ) (l : List ℕ) (st : ℕ × ℕ × ℕ) :
    st.1 ≤ (l.foldl (grid_step n) st).1 := by
  induction l generalizing st with
  | nil => exact le_refl _
  | cons a l ih => exact le_trans (grid_step_fst_le n st a) (ih _)

lemma grid_foldl_candidate_le (n : ℕ) (l : List ℕ) (st : ℕ × ℕ × ℕ) (c : ℕ) (hc : c ∈ l) :
    min (canvas_width / c) (canvas_height / ((n + c - 1) / c)) ≤ (l.foldl (grid_step n) st).1 := by
  induction l generalizing st with
  | nil => cases hc
  | cons a l ih =>
    rw [List.foldl_cons]
    rcases List.mem_cons.mp hc with h | h
    · subst h
      refine le_trans ?_ (grid_foldl_fst_le n l _)
      unfold grid_step
      split
      · exact le_refl _
      · next hlt => exact le_of_not_lt hlt
    · exact ih _ h

lemma grid_foldl_result (n : ℕ) (l : List ℕ) (st : ℕ × ℕ × ℕ) :
    l.foldl (grid_step n) st = st ∨
    ∃ c ∈ l, l.foldl (grid_step n) st =
      (min (canvas_width / c) (canvas_height / ((n + c - 1) / c)), c, (n + c - 1) / c) := by
  induction l generalizing st with
  | nil => exact Or.inl rfl
  | cons a l ih =>
    rw [List.foldl_cons]
    rcases ih (grid_step n st a) with h | ⟨c, hc, h⟩
    · by_cases hlt : st.1 < min (canvas_width / a) (canvas_height / ((n + a - 1) / a))
      · refine Or.inr ⟨a, List.mem_cons_self a l, ?_⟩
        rw [h]
        unfold grid_step
        rw [if_pos hlt]
      · refine Or.inl ?_
        rw [h]
        unfold grid_step
        rw [if_neg hlt]
    · exact Or.inr ⟨c, List.mem_cons_of_mem a hc, h⟩

lemma le_mul_ceil (n c : ℕ) (hc : 0 < c) : n ≤ c * ((n + c - 1) / c) := by
  have h := Nat.div_add_mod (n + c - 1) c
  have h2 : (n + c - 1) % c < c := Nat.mod_lt _ hc
  obtain ⟨m, hm⟩ : ∃ m, c * ((n + c - 1) / c) = m := ⟨_, rfl⟩
  obtain ⟨r, hr⟩ : ∃ r, (n + c - 1) % c = r := ⟨_, rfl⟩
  rw [hm, hr] at h
  rw [hr] at h2
  rw [hm]
  omega

lemma candidate_size_pos (n : ℕ) (hn : 0 < n) (hb : n ≤ canvas_width * canvas_height) :
    1 ≤ min (canvas_width / min n 400) (canvas_height / ((n + min n 400 - 1) / min n 400)) := by
  have hcw : canvas_width = 400 := rfl
  have hch : canvas_height = 800 := rfl
  rw [hcw, hch]
  rw [hcw, hch] at hb
  by_cases h4 : n ≤ 400
  · rw [min_eq_left h4]
    have hrows : (n + n - 1) / n = 1 := by
      apply Nat.div_eq_of_lt_le <;> omega
    rw [hrows]
    refine le_min ?_ ?_
    · exact Nat.div_pos (by omega) hn
    · norm_num
  · rw [min_eq_right (by omega : 400 ≤ n)]
    have hrows_le : (n + 400 - 1) / 400 ≤ 800 := by
      have h399 : n + 400 - 1 ≤ 320399 := by omega
      calc (n + 400 - 1) / 400 ≤ 320399 / 400 := Nat.div_le_div_right h399
        _ = 800 := by norm_num
    have hrows_pos : 0 < (n + 400 - 1) / 400 := Nat.div_pos (by omega) (by norm_num)
    refine le_min ?_ ?_
    · norm_num
    · exact Nat.div_pos hrows_le hrows_pos

/-- C3: for every `n > 0` with `n ≤ canvas_width * canvas_height`, the
geometry chosen by the layout engine (searching every `cols` from 1 to `n`
with `rows = ceil(n/cols)` and candidate size
`floor(min(canvas_width/cols, canvas_height/rows))` in the general case)
satisfies `cols * rows ≥ n` and `cellSize ≥ 1`. -/
theorem image_layout_geometry :
    ∀ n ps : ℕ, 0 < n → n ≤ canvas_width * canvas_height → 1 ≤ ps →
      n ≤ (image_layout n ps).2.1 * (image_layout n ps).2.2 ∧
      1 ≤ (image_layout n ps).1 := by
  intro n ps hn hb hps
  unfold image_layout
  by_cases hv : ps ≤ min canvas_width (canvas_height / n)
  · rw [if_pos hv]
    exact ⟨by simp, le_trans hps hv⟩
  · rw [if_neg hv]
    unfold grid_search
    have hmem : min n 400 ∈ List.range' 1 n := by
      have h1 : 1 ≤ min n 400 := le_min hn (by norm_num)
      have h2 : min n 400 ≤ n := min_le_left _ _
      rw [List.mem_range']
      exact ⟨min n 400 - 1, by omega, by omega⟩
    have hcand := candidate_size_pos n hn hb
    have hsize : 1 ≤ ((List.range' 1 n).foldl (grid_step n) (0, 1, 1)).1 :=
      le_trans hcand (grid_foldl_candidate_le n _ _ _ hmem)
    rcases grid_foldl_result n (List.range' 1 n) (0, 1, 1) with h | ⟨c, hc, h⟩
    · rw [h] at hsize
      exact absurd hsize (by norm_num)
    · have hc1 : 1 ≤ c := by
        rw [List.mem_range'] at hc
        omega
      rw [h]
      exact ⟨le_mul_ceil n c hc1, by rw [h] at hsize; exact hsize⟩

/-- Witness for C3 at `n = 3`, `pixel_size = 1`. -/
theorem image_layout_geometry_witness :
    3 ≤ (image_layout 3 1).2.1 * (image_layout 3 1).2.2 ∧ 1 ≤ (image_layout 3 1).1 :=
  image_layout_geometry 3 1 (by norm_num) (by norm_num [canvas_width, canvas_height]) (by norm_num)
